import Mathlib

/-!
Verification of the core utilities of `newspaper/utils.py`.

The Python source is shallowly embedded:
* Python exceptions are modelled by the `PyErr` type; fallible code returns
  `Except PyErr _`.
* `hashlib.md5(x).hexdigest()` is modelled by an abstract digest function
  `List Nat → String` over byte lists; crucially, Python 3 `hashlib`
  raises `TypeError` when handed a `str` instead of `bytes`, which the
  model reflects in `md5_hexdigest`.
* `time.time()` values are modelled by their rendered decimal string
  (the `'%s' % time.time()` formatting used by the source); distinct
  captured instants render to distinct strings.
* `urllib.parse.urlparse` (the `netloc`/`path` components used by the
  source) is modelled faithfully after CPython `urlsplit`/`_splitparams`:
  scheme detection at the first ':', netloc after a leading '//' up to
  the first of '/', '?', '#', fragment split at the first '#', query
  split at the first '?', params split at the first ';' of the last path
  segment, and the unmatched-bracket (IPv6) `ValueError` check.
  (CPython's removal of tab/CR/LF bytes is not modelled.)
* Python dicts (insertion ordered, last write wins on values, original
  key position kept) are modelled by association lists with `dictInsert`.
* The `threading`-based guard `timelimit` is modelled by `timelimit_run`
  over an `Operation` carrying its wall-clock duration and its outcome;
  `join(timeout)`/`isAlive()` (Python ≤ 3.8 semantics, as used by the
  source) are modelled by comparing the duration with the deadline.
-/

namespace NewspaperUtils

/-- Python exceptions that the embedded code can raise. -/
inductive PyErr where
  | typeError
  | indexError
  | attributeError
  | valueError
  deriving DecidableEq, Repr

/-- Python runtime values, as far as the timeout guard needs them:
plain strings and exception instances (a class name applied to an
argument list, as produced by `cls(*args)`). -/
inductive PyVal where
  | str : String → PyVal
  | exc : String → List PyVal → PyVal
  deriving Repr

/-- `type(v).__name__` for the values above. -/
def excClass : PyVal → String
  | .str _ => "str"
  | .exc c _ => c

/-- A zero-argument operation handed to the timeout guard
(`function(*args, **kw)` after the two decorator stages): its wall-clock
running time and the outcome it eventually produces. -/
structure Operation where
  duration : Nat
  outcome : Except PyVal PyVal

/-- What `timelimit(timeout)(function)(*args)` does from the caller's
point of view. -/
inductive GuardResult where
  | timedOut
  | raised (e : PyVal)
  | value (v : PyVal)
  deriving Repr

/-- The observable state when the guard returns: its result, plus
whether the dispatch thread is still alive at that moment
(`c.isAlive()` right after `c.join(timeout)`; the source never
terminates or joins the worker again, it only sets the daemon flag). -/
structure GuardReturn where
  result : GuardResult
  workerAliveAtReturn : Bool

/-- `timelimit` from `utils.py` (lines 156-183): run the operation on a
daemon thread, `join` with the deadline, raise `TimeoutError` if the
thread is still alive, re-raise `c.error[0](c.error[1])` if the
operation failed, otherwise return `c.result`.  Note that
`c.error[0](c.error[1])` constructs a brand-new exception of the same
class whose sole argument is the original exception instance. -/
def timelimit_run (timeout : Nat) (op : Operation) : GuardReturn :=
  if timeout < op.duration then
    { result := .timedOut, workerAliveAtReturn := true }
  else
    match op.outcome with
    | .error e => { result := .raised (PyVal.exc (excClass e) [e]), workerAliveAtReturn := false }
    | .ok v => { result := .value v, workerAliveAtReturn := false }

/-- `ParsingCandidate` from `utils.py`. -/
structure ParsingCandidate where
  url : String
  link_hash : String
  deriving DecidableEq, Repr

/-- An argument passed to `hashlib.md5`: either a Python `str` or
`bytes` (a list of byte values). -/
inductive HashArg where
  | ofStr : String → HashArg
  | ofBytes : List Nat → HashArg

/-- `hashlib.md5(x).hexdigest()`, with the digest itself abstracted as
a function over byte lists.  Python 3 `hashlib` raises
`TypeError: Strings must be encoded before hashing` when given a `str`. -/
def md5_hexdigest (digest : List Nat → String) : HashArg → Except PyErr String
  | .ofStr _ => .error .typeError
  | .ofBytes b => .ok (digest b)

/-- `s.encode('utf-8', 'replace')`.  UTF-8 can encode every code point,
so the 'replace' handler never fires and this is plain UTF-8 encoding. -/
def utf8Encode (s : String) : List Nat :=
  s.toUTF8.toList.map (fun b => b.toNat)

/-- The replacement text `?_escaped_fragment_=` used for `#!`. -/
def escFrag : List Char := "?_escaped_fragment_=".data

/-- `'#!' in url` on the character list of the URL. -/
def hasShebang : List Char → Bool
  | [] => false
  | [_] => false
  | c :: d :: t => if c = '#' ∧ d = '!' then true else hasShebang (d :: t)

/-- `url.replace('#!', '?_escaped_fragment_=')`: replace every
(left-to-right, non-overlapping) occurrence of `#!`. -/
def replaceShebang : List Char → List Char
  | [] => []
  | [c] => [c]
  | c :: d :: t =>
    if c = '#' ∧ d = '!' then escFrag ++ replaceShebang t
    else c :: replaceShebang (d :: t)

/-- The URL normalization performed by `URLHelper.get_parsing_candidate`:
`url.replace('#!', '?_escaped_fragment_=') if '#!' in url else url`. -/
def normalize_shebang (s : String) : String :=
  if hasShebang s.data then String.mk (replaceShebang s.data) else s

/-- `RawHelper.get_parsing_candidate` (lines 90-96): encode `str` input
to bytes, digest the bytes, and tag with the captured time `now`
(`'%s.%s' % (md5(raw).hexdigest(), time.time())`). -/
def RawHelper_get_parsing_candidate (digest : List Nat → String) (now : String)
    (url : String) (raw_html : HashArg) : ParsingCandidate :=
  let b := match raw_html with
    | .ofStr s => utf8Encode s
    | .ofBytes bs => bs
  { url := url, link_hash := digest b ++ "." ++ now }

/-- `URLHelper.get_parsing_candidate` (lines 99-106): normalize the
`#!` marker, then `hashlib.md5(final_url)` — note the source passes the
`str` itself, not encoded bytes, to `md5`. -/
def URLHelper_get_parsing_candidate (digest : List Nat → String) (now : String)
    (url_to_crawl : String) : Except PyErr ParsingCandidate :=
  let final_url := normalize_shebang url_to_crawl
  match md5_hexdigest digest (.ofStr final_url) with
  | .error e => .error e
  | .ok h => .ok { url := final_url, link_hash := h ++ "." ++ now }

/-- `'-' for '/'` character map used by `domain_to_filename`. -/
def toDash (c : Char) : Char := if c = '/' then '-' else c

/-- `domain_to_filename` (lines 186-194): replace every '/' with '-',
drop the last character if it is '-' (`filename[-1]` raises
`IndexError` on an empty string), then append `".txt"`. -/
def domain_to_filename (domain : String) : Except PyErr String :=
  let filename := domain.data.map toDash
  match filename.getLast? with
  | none => .error .indexError
  | some c =>
    let f2 := if c = '-' then filename.dropLast else filename
    .ok (String.mk (f2 ++ ".txt".data))

/-! URL parsing, after CPython `urllib.parse`.  `memoize_articles` uses
only `u.netloc` and `u.path` of `urlparse(url)`. -/

/-- Characters allowed in a URL scheme after the leading letter
(CPython `scheme_chars`). -/
def schemeChar (c : Char) : Bool :=
  c.isAlpha || c.isDigit || c = '+' || c = '-' || c = '.'

/-- Split a character list at its first ':' (CPython `url.find(':')`):
`none` when there is no colon, otherwise the part before and after it. -/
def splitColon : List Char → Option (List Char × List Char)
  | [] => none
  | c :: t =>
    if c = ':' then some ([], t)
    else
      match splitColon t with
      | none => none
      | some (pre, post) => some (c :: pre, post)

/-- CPython's scheme test: the prefix before the first ':' is nonempty,
starts with an ASCII letter, and its remaining characters are scheme
characters. -/
def validScheme : List Char → Bool
  | [] => false
  | c :: t => c.isAlpha && t.all schemeChar

/-- Remove a valid `scheme:` prefix, as `urlsplit` does; otherwise
return the URL unchanged. -/
def stripScheme (u : List Char) : List Char :=
  match splitColon u with
  | none => u
  | some (pre, post) => if validScheme pre then post else u

/-- Not a netloc delimiter: CPython `_splitnetloc` scans for the first
of '/', '?', '#'. -/
def nd (c : Char) : Bool := !(c == '/' || c == '?' || c == '#')

/-- Not a fragment/query delimiter: the path stops at the first '#'
(fragment split) or '?' (query split). -/
def np (c : Char) : Bool := !(c == '#' || c == '?')

/-- `_splitnetloc`: on a leading '//', the netloc is everything up to
the first '/', '?' or '#'; otherwise the netloc is empty. Returns
(netloc, remainder). -/
def splitNetloc : List Char → List Char × List Char
  | '/' :: '/' :: w => (w.takeWhile nd, w.dropWhile nd)
  | v => ([], v)

/-- `urlparse`'s params split (`_splitparams`): if the path contains a
';' in its last '/'-segment (or anywhere, when there is no '/'), the
path is cut at that ';'. -/
def dropParams (p : List Char) : List Char :=
  if ';' ∈ p then
    if '/' ∈ p then
      let lastSeg := (p.reverse.takeWhile (fun c => c ≠ '/')).reverse
      if ';' ∈ lastSeg then
        p.take (p.length - lastSeg.length) ++ lastSeg.takeWhile (fun c => c ≠ ';')
      else p
    else p.takeWhile (fun c => c ≠ ';')
  else p

/-- The `netloc`/`path` part of CPython `urlparse`. -/
structure UrlParts where
  netloc : List Char
  path : List Char
  deriving DecidableEq, Repr

/-- `urlparse(url)` restricted to the `netloc` and `path` components:
strip the scheme, split off the netloc after '//', reject unmatched
IPv6 brackets in the netloc with `ValueError`, cut the remainder at the
first '#' or '?', and split params off the path. -/
def urlparseNP (u : List Char) : Except PyErr UrlParts :=
  let v := stripScheme u
  let nl := (splitNetloc v).1
  let rest := (splitNetloc v).2
  if (nl.contains '[') ≠ (nl.contains ']') then .error .valueError
  else .ok { netloc := nl, path := dropParams (rest.takeWhile np) }

/-- The dedup lookup key `f'{u.netloc}{u.path}'` that `memoize_articles`
sends to `SELECT id FROM urls WHERE href = %s`. -/
def href (url : String) : Except PyErr String :=
  (urlparseNP url.data).map (fun p => String.mk (p.netloc ++ p.path))

/-! The deduplicator `memoize_articles` and its collaborators. -/

/-- An article as far as `memoize_articles` looks at it: its `url`
attribute plus the rest of the object, opaque here. -/
structure Article where
  url : String
  payload : String
  deriving DecidableEq, Repr

/-- One `dict[k] = v` step of a Python dict held as an insertion-ordered
association list: an existing key keeps its position and gets the new
value, a new key is appended. -/
def dictInsert : List (String × Article) → String → Article → List (String × Article)
  | [], k, v => [(k, v)]
  | (k', v') :: rest, k, v =>
    if k' = k then (k', v) :: rest else (k', v') :: dictInsert rest k v

/-- The dict comprehension
`{article.url: article for article in articles}` (line 297). -/
def buildDict (articles : List Article) : List (String × Article) :=
  articles.foldl (fun d a => dictInsert d a.url a) []

/-- Lookup in the association-list dict. -/
def lookupD : List (String × Article) → String → Option Article
  | [], _ => none
  | (k', v) :: rest, k => if k' = k then some v else lookupD rest k

/-- The loop over `list(current_articles.items())` (lines 299-306): for
each key, `urlparse` it, query the store for its `netloc + path`, and
drop the entry when a row exists.  A parse error aborts the whole call
(the exception propagates).  `seen` is the set of `href` values in the
`urls` table. -/
def memoFilter (seen : List String) : List (String × Article) → Except PyErr (List Article)
  | [] => .ok []
  | (u, a) :: rest =>
    match href u with
    | .error e => .error e
    | .ok k =>
      match memoFilter seen rest with
      | .error e => .error e
      | .ok rest' => .ok (if k ∈ seen then rest' else a :: rest')

/-- `memoize_articles` (lines 287-308).  The module-level `conn` global
is passed explicitly: `none` models a failed `db_connect` (where
`conn.cursor()` raises `AttributeError`), `some seen` models a live
connection whose `urls` table holds the `href` values `seen`.  The
unused `source` parameter of the Python function is omitted. -/
def memoize_articles (conn : Option (List String)) (articles : List Article) :
    Except PyErr (List Article) :=
  if articles.length = 0 then .ok []
  else
    match conn with
    | none => .error .attributeError
    | some seen => memoFilter seen (buildDict articles)

/-- `db_connect` (lines 52-64): try to establish the connection; on any
exception print it and return `None`.  The attempt itself (config file
plus `psycopg2.connect`) is abstracted as an `Except` argument. -/
def db_connect (attempt : Except String (List String)) : Option (List String) :=
  match attempt with
  | .ok c => some c
  | .error _ => none

/-- A concrete digest function used to instantiate digest-parametric
theorems on concrete inputs. -/
def constDigest : List Nat → String := fun _ => "d0"

/-- Induction along the two-character window used by `hasShebang` and
`replaceShebang`. -/
def twoStepInduction {motive : List Char → Prop}
    (h0 : motive []) (h1 : ∀ c, motive [c])
    (h2 : ∀ c d t, motive t → motive (d :: t) → motive (c :: d :: t)) :
    ∀ l, motive l
  | [] => h0
  | [c] => h1 c
  | c :: d :: t =>
    h2 c d t (twoStepInduction h0 h1 h2 t) (twoStepInduction h0 h1 h2 (d :: t))

/-! ## Theorems -/

theorem string_append_cancel_left (a s t : String) (h : a ++ s = a ++ t) : s = t := by
  obtain ⟨la⟩ := a; obtain ⟨ls⟩ := s; obtain ⟨lt⟩ := t
  have hd : la ++ ls = la ++ lt := congrArg String.data h
  exact congrArg String.mk (List.append_cancel_left hd)

/-- C1: the spec says the URL-based fingerprint generator succeeds on
every URL string and returns a digest-plus-time fingerprint.  The code
instead hands the `str` itself to `hashlib.md5`, which in Python 3
raises `TypeError` for every input — the call never succeeds. -/
theorem c1_urlhelper_always_raises_type_error
    (digest : List Nat → String) (now url : String) :
    URLHelper_get_parsing_candidate digest now url = .error .typeError := rfl

/-- C8: the content-based fingerprint of byte-identical content at two
different captured timestamps yields two different fingerprint strings. -/
theorem c8_raw_fingerprint_differs_across_times
    (digest : List Nat → String) (url : String) (content : List Nat)
    (t1 t2 : String) (hne : t1 ≠ t2) :
    (RawHelper_get_parsing_candidate digest t1 url (.ofBytes content)).link_hash ≠
      (RawHelper_get_parsing_candidate digest t2 url (.ofBytes content)).link_hash := by
  intro hEq
  exact hne (string_append_cancel_left (digest content ++ ".") t1 t2 hEq)

theorem c8_witness :
    (RawHelper_get_parsing_candidate constDigest "1700000000.11" "u" (.ofBytes [104, 105])).link_hash ≠
      (RawHelper_get_parsing_candidate constDigest "1700000000.12" "u" (.ofBytes [104, 105])).link_hash :=
  c8_raw_fingerprint_differs_across_times constDigest "u" [104, 105]
    "1700000000.11" "1700000000.12" (by decide)

/-- C4 counterexample: an operation that fails within the deadline with
`ValueError("msg")` does not cause the guard to re-signal that same
error — the guard raises a different (freshly constructed) exception,
so error identity is not preserved. -/
theorem c4_counterexample :
    (timelimit_run 5
        { duration := 1, outcome := .error (PyVal.exc "ValueError" [PyVal.str "msg"]) }).result ≠
      .raised (PyVal.exc "ValueError" [PyVal.str "msg"]) := by
  simp [timelimit_run, excClass]

/-- C4 (amended): when the operation fails within the deadline, the
guard raises a new exception of the same class, constructed by applying
that class to the original exception instance (`c.error[0](c.error[1])`);
the kind is preserved, the identity/payload is not. -/
theorem c4_amended_same_class_reraise (t : Nat) (op : Operation) (e : PyVal)
    (hd : op.duration ≤ t) (he : op.outcome = .error e) :
    (timelimit_run t op).result = .raised (PyVal.exc (excClass e) [e]) ∧
      excClass (PyVal.exc (excClass e) [e]) = excClass e := by
  constructor
  · unfold timelimit_run
    rw [if_neg (Nat.not_lt.mpr hd), he]
  · rfl

theorem c4_witness :
    (timelimit_run 5
        { duration := 1, outcome := .error (PyVal.exc "ValueError" [PyVal.str "msg"]) }).result =
      .raised (PyVal.exc (excClass (PyVal.exc "ValueError" [PyVal.str "msg"]))
        [PyVal.exc "ValueError" [PyVal.str "msg"]]) ∧
      excClass (PyVal.exc (excClass (PyVal.exc "ValueError" [PyVal.str "msg"]))
          [PyVal.exc "ValueError" [PyVal.str "msg"]]) =
        excClass (PyVal.exc "ValueError" [PyVal.str "msg"]) :=
  c4_amended_same_class_reraise 5 _ _ (by decide) rfl

/-- C5: when the operation's execution time exceeds the deadline the
guard returns `TimedOut`; the worker thread is still alive when the
guard returns (it is never terminated), and the operation's eventual
outcome has no influence on what the guard returns — it is silently
discarded. -/
theorem c5_timeout_signal_and_leaked_worker (t : Nat) (op : Operation)
    (hd : t < op.duration) :
    (timelimit_run t op).result = .timedOut ∧
      (timelimit_run t op).workerAliveAtReturn = true ∧
      ∀ o : Except PyVal PyVal, timelimit_run t { op with outcome := o } = timelimit_run t op := by
  refine ⟨?_, ?_, fun o => ?_⟩ <;> simp [timelimit_run, hd]

theorem c5_witness :
    (timelimit_run 3 { duration := 5, outcome := .ok (PyVal.str "late") }).result = .timedOut ∧
      (timelimit_run 3 { duration := 5, outcome := .ok (PyVal.str "late") }).workerAliveAtReturn = true ∧
      timelimit_run 3 { duration := 5, outcome := .error (PyVal.str "boom") } =
        timelimit_run 3 { duration := 5, outcome := .ok (PyVal.str "late") } := by
  have h := c5_timeout_signal_and_leaked_worker 3 { duration := 5, outcome := .ok (PyVal.str "late") }
    (by decide)
  exact ⟨h.1, h.2.1, h.2.2 (.error (PyVal.str "boom"))⟩

/-- C3: the claim is that a null store handle is handled gracefully.
In the code, when `db_connect` fails the module-level `conn` is `None`,
and every `memoize_articles` call on a non-empty batch evaluates
`conn.cursor()` and crashes with `AttributeError` — it neither treats
the store as empty nor signals a dedicated unusable-store condition. -/
theorem c3_null_store_crashes (msg : String) (articles : List Article)
    (h : articles ≠ []) :
    db_connect (.error msg) = none ∧
      memoize_articles (db_connect (.error msg)) articles = .error .attributeError := by
  refine ⟨rfl, ?_⟩
  have hlen : ¬ articles.length = 0 := by simpa [List.length_eq_zero] using h
  simp [memoize_articles, db_connect, hlen]

theorem c3_witness :
    db_connect (.error "connection refused") = none ∧
      memoize_articles (db_connect (.error "connection refused"))
        [{ url := "http://example.com/a", payload := "p" }] = .error .attributeError :=
  c3_null_store_crashes "connection refused" _ (by simp)

theorem lookupD_dictInsert_self (d : List (String × Article)) (k : String) (v : Article) :
    lookupD (dictInsert d k v) k = some v := by
  induction d with
  | nil => simp [dictInsert, lookupD]
  | cons p rest ih =>
    obtain ⟨k', v'⟩ := p
    by_cases h : k' = k
    · simp [dictInsert, lookupD, h]
    · simp [dictInsert, lookupD, h, ih]

theorem lookupD_dictInsert_ne (d : List (String × Article)) (k k' : String) (v : Article)
    (h : k' ≠ k) : lookupD (dictInsert d k v) k' = lookupD d k' := by
  induction d with
  | nil => simp [dictInsert, lookupD, if_neg (Ne.symm h)]
  | cons p rest ih =>
    obtain ⟨k0, v0⟩ := p
    by_cases h0 : k0 = k
    · subst h0
      simp [dictInsert, lookupD, if_neg (Ne.symm h)]
    · simp [dictInsert, lookupD, h0, ih]

theorem getLast?_cons_eq (a : Article) (l : List Article) :
    (a :: l).getLast? =
      match l.getLast? with
      | some x => some x
      | none => some a := by
  cases l with
  | nil => rfl
  | cons b t =>
    rw [List.getLast?_cons_cons]
    obtain ⟨x, hx⟩ :=
      Option.isSome_iff_exists.mp ((List.getLast?_isSome (l := b :: t)).mpr (by simp))
    rw [hx]

theorem lookupD_foldl (articles : List Article) (d : List (String × Article)) (u : String) :
    lookupD (articles.foldl (fun d a => dictInsert d a.url a) d) u =
      match (articles.filter (fun a => a.url = u)).getLast? with
      | some x => some x
      | none => lookupD d u := by
  induction articles generalizing d with
  | nil => rfl
  | cons a rest ih =>
    rw [List.foldl_cons, ih]
    by_cases h : a.url = u
    · subst h
      rw [List.filter_cons_of_pos (by simp), getLast?_cons_eq]
      cases hfl : (rest.filter (fun x => x.url = a.url)).getLast? with
      | some x => rfl
      | none => exact lookupD_dictInsert_self d a.url a
    · rw [List.filter_cons_of_neg (by simpa using h)]
      cases hfl : (rest.filter (fun x => x.url = u)).getLast? with
      | some x => rfl
      | none => exact lookupD_dictInsert_ne d a.url u a (fun hh => h hh.symm)

theorem lookupD_buildDict (articles : List Article) (u : String) :
    lookupD (buildDict articles) u = (articles.filter (fun a => a.url = u)).getLast? := by
  rw [buildDict, lookupD_foldl]
  cases (articles.filter (fun a => a.url = u)).getLast? with
  | some x => rfl
  | none => rfl

theorem dictInsert_mem (d : List (String × Article)) (k : String) (v : Article)
    (p : String × Article) (hp : p ∈ dictInsert d k v) : p ∈ d ∨ p = (k, v) := by
  induction d with
  | nil => simpa [dictInsert] using hp
  | cons q rest ih =>
    obtain ⟨k0, v0⟩ := q
    by_cases h0 : k0 = k
    · subst h0
      rcases (by simpa [dictInsert] using hp : p = (k0, v) ∨ p ∈ rest) with h | h
      · exact Or.inr (by simpa using h)
      · exact Or.inl (List.mem_cons_of_mem _ h)
    · rcases (by simpa [dictInsert, h0] using hp : p = (k0, v0) ∨ p ∈ dictInsert rest k v) with h | h
      · exact Or.inl (by simp [h])
      · rcases ih h with h' | h'
        · exact Or.inl (List.mem_cons_of_mem _ h')
        · exact Or.inr h'

theorem buildDict_entry (articles : List Article) (p : String × Article)
    (hp : p ∈ buildDict articles) : p.1 = p.2.url ∧ p.2 ∈ articles := by
  suffices h : ∀ (arts : List Article) (d : List (String × Article)) (p : String × Article),
      p ∈ arts.foldl (fun d a => dictInsert d a.url a) d →
      p ∈ d ∨ (p.1 = p.2.url ∧ p.2 ∈ arts) by
    rcases h articles [] p hp with h' | h'
    · simp at h'
    · exact h'
  intro arts
  induction arts with
  | nil => intro d p hp; exact Or.inl hp
  | cons a rest ih =>
    intro d p hp
    rcases ih (dictInsert d a.url a) p hp with h' | h'
    · rcases dictInsert_mem d a.url a p h' with h'' | h''
      · exact Or.inl h''
      · exact Or.inr ⟨by simp [h''], by simp [h'']⟩
    · exact Or.inr ⟨h'.1, List.mem_cons_of_mem _ h'.2⟩

theorem dictInsert_keys (d : List (String × Article)) (k : String) (v : Article) :
    (dictInsert d k v).map Prod.fst =
      if k ∈ d.map Prod.fst then d.map Prod.fst else d.map Prod.fst ++ [k] := by
  induction d with
  | nil => simp [dictInsert]
  | cons q rest ih =>
    obtain ⟨k0, v0⟩ := q
    by_cases h0 : k0 = k
    · simp [dictInsert, h0]
    · simp only [dictInsert, if_neg h0, List.map_cons, ih]
      have hne : ¬ k = k0 := fun hh => h0 hh.symm
      by_cases hk : k ∈ rest.map Prod.fst
      · simp [hk, hne]
      · simp [hk, hne]

theorem buildDict_keys_nodup (articles : List Article) :
    ((buildDict articles).map Prod.fst).Nodup := by
  suffices h : ∀ (arts : List Article) (d : List (String × Article)),
      (d.map Prod.fst).Nodup →
      ((arts.foldl (fun d a => dictInsert d a.url a) d).map Prod.fst).Nodup by
    exact h articles [] (by simp)
  intro arts
  induction arts with
  | nil => intro d hd; exact hd
  | cons a rest ih =>
    intro d hd
    apply ih
    rw [dictInsert_keys]
    by_cases hk : a.url ∈ d.map Prod.fst
    · simpa [hk] using hd
    · simp only [if_neg hk]
      simp [List.nodup_append, hd, hk]

theorem memoFilter_mem (seen : List String) (d : List (String × Article))
    (out : List Article) (hout : memoFilter seen d = .ok out) (a : Article) :
    a ∈ out ↔ ∃ k kc, (k, a) ∈ d ∧ href k = .ok kc ∧ kc ∉ seen := by
  induction d generalizing out with
  | nil =>
    have : out = [] := by simpa [memoFilter] using hout.symm
    subst this
    simp
  | cons q rest ih =>
    obtain ⟨u, b⟩ := q
    cases hh : href u with
    | error e => rw [memoFilter, hh] at hout; exact absurd hout (by simp)
    | ok k =>
      cases hr : memoFilter seen rest with
      | error e => rw [memoFilter, hh, hr] at hout; exact absurd hout (by simp)
      | ok rest' =>
        rw [memoFilter, hh, hr] at hout
        have hout' : (if k ∈ seen then rest' else b :: rest') = out := by
          simpa using hout
        by_cases hk : k ∈ seen
        · rw [if_pos hk] at hout'
          subst hout'
          rw [ih rest' hr]
          constructor
          · rintro ⟨k0, kc, hmem, hhref, hnot⟩
            exact ⟨k0, kc, List.mem_cons_of_mem _ hmem, hhref, hnot⟩
          · rintro ⟨k0, kc, hmem, hhref, hnot⟩
            rcases List.mem_cons.mp hmem with heq | hmem'
            · have h1 : k0 = u := congrArg Prod.fst heq
              exfalso
              apply hnot
              rw [h1, hh] at hhref
              rw [← Except.ok.inj hhref]
              exact hk
            · exact ⟨k0, kc, hmem', hhref, hnot⟩
        · rw [if_neg hk] at hout'
          subst hout'
          rw [List.mem_cons, ih rest' hr]
          constructor
          · rintro (heq | ⟨k0, kc, hmem, hhref, hnot⟩)
            · exact ⟨u, k, by simp [heq], hh, hk⟩
            · exact ⟨k0, kc, List.mem_cons_of_mem _ hmem, hhref, hnot⟩
          · rintro ⟨k0, kc, hmem, hhref, hnot⟩
            rcases List.mem_cons.mp hmem with heq | hmem'
            · have h2 : a = b := congrArg Prod.snd heq
              exact Or.inl h2
            · exact Or.inr ⟨k0, kc, hmem', hhref, hnot⟩

theorem memoFilter_sublist (seen : List String) (d : List (String × Article))
    (out : List Article) (hout : memoFilter seen d = .ok out) :
    out.Sublist (d.map Prod.snd) := by
  induction d generalizing out with
  | nil =>
    have : out = [] := by simpa [memoFilter] using hout.symm
    simp [this]
  | cons q rest ih =>
    obtain ⟨u, b⟩ := q
    cases hh : href u with
    | error e => rw [memoFilter, hh] at hout; exact absurd hout (by simp)
    | ok k =>
      cases hr : memoFilter seen rest with
      | error e => rw [memoFilter, hh, hr] at hout; exact absurd hout (by simp)
      | ok rest' =>
        rw [memoFilter, hh, hr] at hout
        have hout' : (if k ∈ seen then rest' else b :: rest') = out := by
          simpa using hout
        by_cases hk : k ∈ seen
        · rw [if_pos hk] at hout'
          subst hout'
          exact (ih rest' hr).cons b
        · rw [if_neg hk] at hout'
          subst hout'
          exact (ih rest' hr).cons₂ b

/-- C6: when the same URL occurs more than once in the input batch, the
pre-store-query collapse `{article.url: article for article in articles}`
keeps exactly the last-occurring article for that URL (the dict entry
for the URL is the last matching element of the batch), and holds at
most one entry per URL. -/
theorem c6_collapse_keeps_last_occurrence (articles : List Article) (u : String)
    (_hdup : 1 < (articles.filter (fun a => a.url = u)).length) :
    lookupD (buildDict articles) u = (articles.filter (fun a => a.url = u)).getLast? ∧
      ((buildDict articles).map Prod.fst).Nodup :=
  ⟨lookupD_buildDict articles u, buildDict_keys_nodup articles⟩

theorem c6_witness :
    1 < (([{ url := "u1", payload := "p1" }, { url := "u2", payload := "x" },
            { url := "u1", payload := "p2" }] : List Article).filter
          (fun a => a.url = "u1")).length ∧
      (lookupD (buildDict [{ url := "u1", payload := "p1" }, { url := "u2", payload := "x" },
            { url := "u1", payload := "p2" }]) "u1" =
          (([{ url := "u1", payload := "p1" }, { url := "u2", payload := "x" },
              { url := "u1", payload := "p2" }] : List Article).filter
            (fun a => a.url = "u1")).getLast? ∧
        ((buildDict [{ url := "u1", payload := "p1" }, { url := "u2", payload := "x" },
            ({ url := "u1", payload := "p2" } : Article)]).map Prod.fst).Nodup) :=
  ⟨by decide,
    c6_collapse_keeps_last_occurrence
      [{ url := "u1", payload := "p1" }, { url := "u2", payload := "x" },
        { url := "u1", payload := "p2" }] "u1" (by decide)⟩

/-- C9: whatever the store state and input batch, every article the
deduplicator returns is an element of the input batch (unchanged), and
the output holds at most one article per URL. -/
theorem c9_output_subset_and_url_unique (conn : Option (List String))
    (articles out : List Article) (hout : memoize_articles conn articles = .ok out) :
    (∀ a, a ∈ out → a ∈ articles) ∧ (out.map (fun a => a.url)).Nodup := by
  by_cases hlen : articles.length = 0
  · unfold memoize_articles at hout
    rw [if_pos hlen] at hout
    have : out = [] := by simpa using hout.symm
    subst this
    simp
  · unfold memoize_articles at hout
    rw [if_neg hlen] at hout
    cases conn with
    | none => exact absurd hout (by simp)
    | some seen =>
      constructor
      · intro a ha
        obtain ⟨k, kc, hmem, -, -⟩ := (memoFilter_mem seen (buildDict articles) out hout a).mp ha
        exact (buildDict_entry articles (k, a) hmem).2
      · have hsub := memoFilter_sublist seen (buildDict articles) out hout
        have hmap := hsub.map (fun a => a.url)
        have hcongr : (buildDict articles).map ((fun a => a.url) ∘ Prod.snd) =
            (buildDict articles).map Prod.fst := by
          apply List.map_congr_left
          intro p hp
          exact (buildDict_entry articles p hp).1.symm
        rw [List.map_map, hcongr] at hmap
        exact (buildDict_keys_nodup articles).sublist hmap

theorem c9_witness :
    (∀ a, a ∈ ([{ url := "http://example.com/b", payload := "q" }] : List Article) →
        a ∈ ([{ url := "http://example.com/a", payload := "p" },
              { url := "http://example.com/b", payload := "q" }] : List Article)) ∧
      (([{ url := "http://example.com/b", payload := "q" }] : List Article).map
        (fun a => a.url)).Nodup :=
  c9_output_subset_and_url_unique (some ["example.com/a"])
    [{ url := "http://example.com/a", payload := "p" },
      { url := "http://example.com/b", payload := "q" }]
    [{ url := "http://example.com/b", payload := "q" }] rfl

/-- C7: an article survives the deduplicator exactly when it is the
dict entry for its URL and its scheme-stripped host+path key is absent
from the store; the key ignores query string and fragment, as the
concrete `example.com` instances show, so a stored host+path excludes
every candidate sharing that host+path and candidates with a fresh
host+path are retained. -/
theorem c7_store_lookup_on_host_path (seen : List String) (articles out : List Article)
    (hout : memoize_articles (some seen) articles = .ok out) (a : Article) :
    (a ∈ out ↔ ((a.url, a) ∈ buildDict articles ∧
        ∃ kc, href a.url = .ok kc ∧ kc ∉ seen)) ∧
      href "http://example.com/a" = .ok "example.com/a" ∧
      href "http://example.com/a?utm=1" = .ok "example.com/a" ∧
      href "http://example.com/a#frag" = .ok "example.com/a" ∧
      href "http://example.com/b" = .ok "example.com/b" := by
  refine ⟨?_, rfl, rfl, rfl, rfl⟩
  by_cases hlen : articles.length = 0
  · unfold memoize_articles at hout
    rw [if_pos hlen] at hout
    have hnil : articles = [] := List.length_eq_zero.mp hlen
    have : out = [] := by simpa using hout.symm
    subst this
    subst hnil
    simp [buildDict]
  · unfold memoize_articles at hout
    rw [if_neg hlen] at hout
    rw [memoFilter_mem seen (buildDict articles) out hout]
    constructor
    · rintro ⟨k, kc, hmem, hhref, hnot⟩
      have hk : k = a.url := (buildDict_entry articles (k, a) hmem).1
      subst hk
      exact ⟨hmem, kc, hhref, hnot⟩
    · rintro ⟨hmem, kc, hhref, hnot⟩
      exact ⟨a.url, kc, hmem, hhref, hnot⟩

theorem c7_witness :
    (({ url := "http://example.com/b", payload := "q" } : Article) ∈
        ([{ url := "http://example.com/b", payload := "q" }] : List Article) ↔
      (("http://example.com/b", ({ url := "http://example.com/b", payload := "q" } : Article)) ∈
          buildDict [{ url := "http://example.com/a?utm=1", payload := "p" },
            { url := "http://example.com/b", payload := "q" }] ∧
        ∃ kc, href "http://example.com/b" = .ok kc ∧ kc ∉ ["example.com/a"])) ∧
      href "http://example.com/a" = .ok "example.com/a" ∧
      href "http://example.com/a?utm=1" = .ok "example.com/a" ∧
      href "http://example.com/a#frag" = .ok "example.com/a" ∧
      href "http://example.com/b" = .ok "example.com/b" :=
  c7_store_lookup_on_host_path ["example.com/a"]
    [{ url := "http://example.com/a?utm=1", payload := "p" },
      { url := "http://example.com/b", payload := "q" }]
    [{ url := "http://example.com/b", payload := "q" }] rfl
    { url := "http://example.com/b", payload := "q" }

theorem escFrag_eq : escFrag = '?' :: "_escaped_fragment_=".data := rfl

theorem rs_cons2_pos (t : List Char) :
    replaceShebang ('#' :: '!' :: t) = escFrag ++ replaceShebang t := by
  simp [replaceShebang]

theorem rs_cons2_neg (c d : Char) (t : List Char) (h : ¬(c = '#' ∧ d = '!')) :
    replaceShebang (c :: d :: t) = c :: replaceShebang (d :: t) := by
  simp only [replaceShebang, if_neg h]

theorem rs_cons (c : Char) (x : List Char) (h : c ≠ '#') :
    replaceShebang (c :: x) = c :: replaceShebang x := by
  cases x with
  | nil => rfl
  | cons d t => exact rs_cons2_neg c d t (fun hh => h hh.1)

theorem splitColon_cons_colon (t : List Char) : splitColon (':' :: t) = some ([], t) := by
  simp [splitColon]

theorem splitColon_cons_ne (c : Char) (t : List Char) (h : c ≠ ':') :
    splitColon (c :: t) =
      match splitColon t with
      | none => none
      | some (pre, post) => some (c :: pre, post) := by
  simp only [splitColon, if_neg h]

theorem splitColon_cons_none_inv (c : Char) (t : List Char)
    (h : splitColon (c :: t) = none) : c ≠ ':' ∧ splitColon t = none := by
  by_cases hc : c = ':'
  · rw [hc, splitColon_cons_colon] at h
    exact absurd h (by simp)
  · rw [splitColon_cons_ne c t hc] at h
    refine ⟨hc, ?_⟩
    cases hst : splitColon t with
    | none => rfl
    | some pq =>
      obtain ⟨p, q⟩ := pq
      rw [hst] at h
      exact absurd h (by simp)

theorem splitColon_cons_some_inv (c : Char) (t pre post : List Char)
    (h : splitColon (c :: t) = some (pre, post)) :
    (c = ':' ∧ pre = [] ∧ post = t) ∨
      (c ≠ ':' ∧ ∃ p, splitColon t = some (p, post) ∧ pre = c :: p) := by
  by_cases hc : c = ':'
  · rw [hc, splitColon_cons_colon] at h
    have h' : [] = pre ∧ t = post := by simpa using h
    exact Or.inl ⟨hc, h'.1.symm, h'.2.symm⟩
  · rw [splitColon_cons_ne c t hc] at h
    cases hst : splitColon t with
    | none => rw [hst] at h; exact absurd h (by simp)
    | some pq =>
      obtain ⟨p, q⟩ := pq
      rw [hst] at h
      have h' : c :: p = pre ∧ q = post := by simpa using h
      exact Or.inr ⟨hc, p, by rw [h'.2], h'.1.symm⟩

theorem splitColon_append_none (a x : List Char) (ha : ':' ∉ a)
    (hx : splitColon x = none) : splitColon (a ++ x) = none := by
  induction a with
  | nil => simpa using hx
  | cons c a' ih =>
    have hc : c ≠ ':' := fun hh => ha (hh ▸ List.mem_cons_self c a')
    rw [List.cons_append, splitColon_cons_ne c _ hc,
        ih (fun hm => ha (List.mem_cons_of_mem c hm))]

theorem splitColon_append_some (a x pre post : List Char) (ha : ':' ∉ a)
    (hx : splitColon x = some (pre, post)) :
    splitColon (a ++ x) = some (a ++ pre, post) := by
  induction a with
  | nil => simpa using hx
  | cons c a' ih =>
    have hc : c ≠ ':' := fun hh => ha (hh ▸ List.mem_cons_self c a')
    rw [List.cons_append, splitColon_cons_ne c _ hc,
        ih (fun hm => ha (List.mem_cons_of_mem c hm))]
    rfl

theorem splitColon_rs_none : ∀ l : List Char, splitColon l = none →
    splitColon (replaceShebang l) = none := by
  refine twoStepInduction ?_ ?_ ?_
  · intro h; exact h
  · intro c h
    exact h
  · intro c d t iht ihdt h
    by_cases hsb : c = '#' ∧ d = '!'
    · obtain ⟨hc, hd⟩ := hsb
      subst hc; subst hd
      obtain ⟨-, h1⟩ := splitColon_cons_none_inv _ _ h
      obtain ⟨-, h2⟩ := splitColon_cons_none_inv _ _ h1
      rw [rs_cons2_pos]
      exact splitColon_append_none escFrag _ (by decide) (iht h2)
    · obtain ⟨hc, h1⟩ := splitColon_cons_none_inv _ _ h
      rw [rs_cons2_neg c d t hsb, splitColon_cons_ne c _ hc, ihdt h1]

theorem splitColon_rs_some : ∀ l pre post : List Char, splitColon l = some (pre, post) →
    splitColon (replaceShebang l) = some (pre, replaceShebang post) ∨
      ∃ pre2 post2, splitColon (replaceShebang l) = some (pre2, post2) ∧
        '?' ∈ pre2 ∧ '#' ∈ pre := by
  refine twoStepInduction ?_ ?_ ?_
  · intro pre post h
    exact absurd h (by simp [splitColon])
  · intro c pre post h
    rcases splitColon_cons_some_inv c [] pre post h with ⟨hc, hpre, hpost⟩ | ⟨hc, p, hp, hpre⟩
    · subst hc; subst hpre; subst hpost
      exact Or.inl (by simpa using h)
    · rw [show splitColon [] = none from rfl] at hp
      exact absurd hp (by simp)
  · intro c d t iht ihdt pre post h
    by_cases hsb : c = '#' ∧ d = '!'
    · obtain ⟨hc, hd⟩ := hsb
      subst hc; subst hd
      rcases splitColon_cons_some_inv _ _ pre post h with ⟨hc, -, -⟩ | ⟨-, p1, hp1, hpre1⟩
      · exact absurd hc (by decide)
      rcases splitColon_cons_some_inv _ _ p1 post hp1 with ⟨hc, -, -⟩ | ⟨-, p2, hp2, hpre2⟩
      · exact absurd hc (by decide)
      rw [rs_cons2_pos]
      rcases iht p2 post hp2 with hL | ⟨pre2, post2, hR, hq, hhash⟩
      · refine Or.inr ⟨escFrag ++ p2, replaceShebang post,
          splitColon_append_some escFrag _ p2 _ (by decide) hL, ?_, ?_⟩
        · exact List.mem_append.mpr (Or.inl (by decide))
        · rw [hpre1]
          exact List.mem_cons_self _ _
      · refine Or.inr ⟨escFrag ++ pre2, post2,
          splitColon_append_some escFrag _ pre2 _ (by decide) hR, ?_, ?_⟩
        · exact List.mem_append.mpr (Or.inl (by decide))
        · rw [hpre1]
          exact List.mem_cons_self _ _
    · rw [rs_cons2_neg c d t hsb]
      rcases splitColon_cons_some_inv c _ pre post h with ⟨hc, hpre, hpost⟩ | ⟨hc, p, hp, hpre⟩
      · subst hc; subst hpre; subst hpost
        rw [splitColon_cons_colon]
        exact Or.inl rfl
      · rcases ihdt p post hp with hL | ⟨pre2, post2, hR, hq, hhash⟩
        · rw [splitColon_cons_ne c _ hc, hL, hpre]
          exact Or.inl rfl
        · rw [splitColon_cons_ne c _ hc, hR]
          exact Or.inr ⟨c :: pre2, post2, rfl, List.mem_cons_of_mem c hq,
            hpre ▸ List.mem_cons_of_mem c hhash⟩

theorem validScheme_false_of_mem (pre : List Char) (c : Char) (hc : c ∈ pre)
    (halpha : c.isAlpha = false) (hscheme : schemeChar c = false) :
    validScheme pre = false := by
  cases pre with
  | nil => simp at hc
  | cons c0 t =>
    rcases List.mem_cons.mp hc with h | h
    · subst h
      simp [validScheme, halpha]
    · cases hall : t.all schemeChar with
      | false => simp [validScheme, hall]
      | true =>
        have := List.all_eq_true.mp hall c h
        rw [hscheme] at this
        exact absurd this (by simp)

theorem stripScheme_rs (u : List Char) :
    stripScheme (replaceShebang u) = replaceShebang (stripScheme u) := by
  unfold stripScheme
  cases h : splitColon u with
  | none => rw [splitColon_rs_none u h]
  | some pp =>
    obtain ⟨pre, post⟩ := pp
    rcases splitColon_rs_some u pre post h with h2 | ⟨pre2, post2, h2, hq, hhash⟩
    · rw [h2]
      show (if validScheme pre = true then replaceShebang post else replaceShebang u) =
        replaceShebang (if validScheme pre = true then post else u)
      by_cases hv : validScheme pre = true
      · rw [if_pos hv, if_pos hv]
      · rw [if_neg hv, if_neg hv]
    · rw [h2]
      show (if validScheme pre2 = true then post2 else replaceShebang u) =
        replaceShebang (if validScheme pre = true then post else u)
      rw [if_neg (by simp [validScheme_false_of_mem pre2 '?' hq (by decide) (by decide)]),
          if_neg (by simp [validScheme_false_of_mem pre '#' hhash (by decide) (by decide)])]

theorem takeWhile_np_rs : ∀ l : List Char,
    (replaceShebang l).takeWhile np = l.takeWhile np := by
  refine twoStepInduction ?_ ?_ ?_
  · rfl
  · intro c; rfl
  · intro c d t iht ihdt
    by_cases hsb : c = '#' ∧ d = '!'
    · obtain ⟨hc, hd⟩ := hsb
      subst hc; subst hd
      rw [rs_cons2_pos, escFrag_eq, List.cons_append,
          List.takeWhile_cons_of_neg (by decide), List.takeWhile_cons_of_neg (by decide)]
    · rw [rs_cons2_neg c d t hsb]
      by_cases hc : np c = true
      · rw [List.takeWhile_cons_of_pos hc, List.takeWhile_cons_of_pos hc, ihdt]
      · rw [List.takeWhile_cons_of_neg hc, List.takeWhile_cons_of_neg hc]

theorem takeWhile_nd_rs : ∀ l : List Char,
    (replaceShebang l).takeWhile nd = l.takeWhile nd := by
  refine twoStepInduction ?_ ?_ ?_
  · rfl
  · intro c; rfl
  · intro c d t iht ihdt
    by_cases hsb : c = '#' ∧ d = '!'
    · obtain ⟨hc, hd⟩ := hsb
      subst hc; subst hd
      rw [rs_cons2_pos, escFrag_eq, List.cons_append,
          List.takeWhile_cons_of_neg (by decide), List.takeWhile_cons_of_neg (by decide)]
    · rw [rs_cons2_neg c d t hsb]
      by_cases hc : nd c = true
      · rw [List.takeWhile_cons_of_pos hc, List.takeWhile_cons_of_pos hc, ihdt]
      · rw [List.takeWhile_cons_of_neg hc, List.takeWhile_cons_of_neg hc]

theorem takeWhile_np_dropWhile_nd_rs : ∀ l : List Char,
    ((replaceShebang l).dropWhile nd).takeWhile np = (l.dropWhile nd).takeWhile np := by
  refine twoStepInduction ?_ ?_ ?_
  · rfl
  · intro c; rfl
  · intro c d t iht ihdt
    by_cases hsb : c = '#' ∧ d = '!'
    · obtain ⟨hc, hd⟩ := hsb
      subst hc; subst hd
      rw [rs_cons2_pos, escFrag_eq, List.cons_append,
          List.dropWhile_cons_of_neg (by decide), List.dropWhile_cons_of_neg (by decide),
          List.takeWhile_cons_of_neg (by decide), List.takeWhile_cons_of_neg (by decide)]
    · rw [rs_cons2_neg c d t hsb]
      by_cases hc : nd c = true
      · rw [List.dropWhile_cons_of_pos hc, List.dropWhile_cons_of_pos hc, ihdt]
      · rw [List.dropWhile_cons_of_neg hc, List.dropWhile_cons_of_neg hc]
        by_cases hc2 : np c = true
        · rw [List.takeWhile_cons_of_pos hc2, List.takeWhile_cons_of_pos hc2, takeWhile_np_rs]
        · rw [List.takeWhile_cons_of_neg hc2, List.takeWhile_cons_of_neg hc2]

theorem rs_head_ne_slash (x : List Char) (h : x.head? ≠ some '/') :
    (replaceShebang x).head? ≠ some '/' := by
  match x with
  | [] =>
    rw [show replaceShebang ([] : List Char) = [] from rfl]
    simp
  | [c] =>
    rw [show replaceShebang [c] = [c] from rfl]
    exact h
  | c :: d :: t =>
    by_cases hsb : c = '#' ∧ d = '!'
    · obtain ⟨hc, hd⟩ := hsb
      subst hc; subst hd
      rw [rs_cons2_pos, escFrag_eq, List.cons_append]
      intro hcon
      simp at hcon
    · rw [rs_cons2_neg c d t hsb]
      simpa using h

theorem splitNetloc_slashslash (w : List Char) :
    splitNetloc ('/' :: '/' :: w) = (w.takeWhile nd, w.dropWhile nd) := rfl

theorem splitNetloc_other (v : List Char) (h : ∀ w, v ≠ '/' :: '/' :: w) :
    splitNetloc v = ([], v) := by
  unfold splitNetloc
  split
  · rename_i w
    exact absurd rfl (h w)
  · rfl

theorem splitNetloc_rs (v : List Char) :
    (splitNetloc (replaceShebang v)).1 = (splitNetloc v).1 ∧
      ((splitNetloc (replaceShebang v)).2).takeWhile np =
        ((splitNetloc v).2).takeWhile np := by
  match v with
  | [] => exact ⟨rfl, rfl⟩
  | [c] => exact ⟨rfl, rfl⟩
  | c :: d :: t =>
    by_cases hslash : c = '/' ∧ d = '/'
    · obtain ⟨hc, hd⟩ := hslash
      subst hc; subst hd
      have h1 : replaceShebang ('/' :: '/' :: t) = '/' :: '/' :: replaceShebang t := by
        rw [rs_cons _ _ (by decide), rs_cons _ _ (by decide)]
      rw [h1, splitNetloc_slashslash, splitNetloc_slashslash]
      exact ⟨takeWhile_nd_rs t, takeWhile_np_dropWhile_nd_rs t⟩
    · by_cases hsb : c = '#' ∧ d = '!'
      · obtain ⟨hc, hd⟩ := hsb
        subst hc; subst hd
        rw [rs_cons2_pos, escFrag_eq, List.cons_append]
        rw [splitNetloc_other _ (by intro w heq; exact absurd (congrArg List.head? heq) (by simp)),
            splitNetloc_other _ (by intro w heq; exact absurd (congrArg List.head? heq) (by simp))]
        refine ⟨rfl, ?_⟩
        rw [List.takeWhile_cons_of_neg (by decide), List.takeWhile_cons_of_neg (by decide)]
      · rw [rs_cons2_neg c d t hsb]
        have hother1 : splitNetloc (c :: d :: t) = ([], c :: d :: t) := by
          apply splitNetloc_other
          intro w heq
          have hc : c = '/' := by
            have := congrArg List.head? heq
            simpa using this
          have hd : d = '/' := by
            have := congrArg List.head? (List.cons.inj heq).2
            simpa using this
          exact hslash ⟨hc, hd⟩
        have hother2 : splitNetloc (c :: replaceShebang (d :: t)) =
            ([], c :: replaceShebang (d :: t)) := by
          apply splitNetloc_other
          intro w heq
          have hc : c = '/' := by
            have := congrArg List.head? heq
            simpa using this
          have hdge : (replaceShebang (d :: t)).head? = some '/' := by
            rw [(List.cons.inj heq).2]
            rfl
          have hd : d ≠ '/' := fun hh => hslash ⟨hc, hh⟩
          exact rs_head_ne_slash (d :: t) (by simpa using hd) hdge
        rw [hother1, hother2]
        refine ⟨rfl, ?_⟩
        by_cases hcp : np c = true
        · rw [List.takeWhile_cons_of_pos hcp, List.takeWhile_cons_of_pos hcp, takeWhile_np_rs]
        · rw [List.takeWhile_cons_of_neg hcp, List.takeWhile_cons_of_neg hcp]

theorem urlparseNP_rs (u : List Char) : urlparseNP (replaceShebang u) = urlparseNP u := by
  simp only [urlparseNP]
  rw [stripScheme_rs]
  obtain ⟨h1, h2⟩ := splitNetloc_rs (stripScheme u)
  rw [h1, h2]

theorem href_normalize (u : String) : href (normalize_shebang u) = href u := by
  unfold normalize_shebang
  by_cases h : hasShebang u.data = true
  · rw [if_pos h]
    unfold href
    rw [show (String.mk (replaceShebang u.data)).data = replaceShebang u.data from rfl,
        urlparseNP_rs]
  · rw [if_neg h]

/-- C2: for a candidate URL carrying the legacy shebang marker, the
host+path key on which the deduplicator queries the store is exactly
the key of the normalized escaped-fragment form (the two keys are
provably equal), so the two URL forms of the same logical resource
dedupe identically against every store state. -/
theorem c2_shebang_dedup_on_normalized_form (u : String) (_h : hasShebang u.data = true) :
    href (normalize_shebang u) = href u ∧
      ∀ (seen : List String) (p : String),
        (memoize_articles (some seen) [{ url := u, payload := p }] = .ok [] ↔
          memoize_articles (some seen) [{ url := normalize_shebang u, payload := p }] = .ok []) := by
  refine ⟨href_normalize u, fun seen p => ?_⟩
  have hm : ∀ v : String, memoize_articles (some seen) [{ url := v, payload := p }] =
      match href v with
      | .error e => .error e
      | .ok k => .ok (if k ∈ seen then ([] : List Article)
          else [{ url := v, payload := p }]) := by
    intro v
    unfold memoize_articles
    rw [if_neg (by simp)]
    show memoFilter seen [(v, { url := v, payload := p })] = _
    rw [memoFilter]
    cases hv : href v with
    | error e => rfl
    | ok k => rfl
  rw [hm u, hm (normalize_shebang u), href_normalize u]
  cases hu : href u with
  | error e => simp
  | ok k =>
    by_cases hk : k ∈ seen
    · simp [hk]
    · simp [hk]

theorem c2_witness :
    href (normalize_shebang "http://example.com/#!/page") = href "http://example.com/#!/page" ∧
      (memoize_articles (some ["example.com/"])
          [{ url := "http://example.com/#!/page", payload := "p" }] = .ok [] ↔
        memoize_articles (some ["example.com/"])
          [{ url := normalize_shebang "http://example.com/#!/page", payload := "p" }] = .ok []) :=
  ⟨(c2_shebang_dedup_on_normalized_form "http://example.com/#!/page" (by decide)).1,
    (c2_shebang_dedup_on_normalized_form "http://example.com/#!/page" (by decide)).2
      ["example.com/"] "p"⟩

theorem toDash_ne_slash (x : Char) : toDash x ≠ '/' := by
  unfold toDash
  by_cases hx : x = '/'
  · rw [if_pos hx]
    decide
  · rw [if_neg hx]
    exact hx

/-- C10 counterexample: the claim says every non-empty domain maps to a
name with no trailing '-' before the '.txt' suffix, but the code strips
at most one trailing '-': the domain "a//" maps to "a-.txt", whose
character before the suffix is '-'. -/
theorem c10_counterexample :
    domain_to_filename "a//" = .ok "a-.txt" ∧
      ("a-.txt".data.take ("a-.txt".data.length - 4)).getLast? = some '-' := by
  constructor
  · rfl
  · decide

/-- C10 (amended): the mapping fails with `IndexError` on the empty
domain (it unconditionally indexes the last character); on a non-empty
domain it returns a '/'-free core with the fixed ".txt" suffix, and at
most one trailing '-' is removed, so the core ends in '-' exactly when
the domain's last two characters both map to '-'. -/
theorem c10_amended_filename_mapping :
    domain_to_filename "" = .error .indexError ∧
      ∀ d : String, d ≠ "" → ∃ s : List Char,
        domain_to_filename d = .ok (String.mk (s ++ ".txt".data)) ∧
        '/' ∉ s ∧
        (s.getLast? = some '-' ↔
          ∃ pre e1 e2, d.data = pre ++ [e1, e2] ∧ toDash e1 = '-' ∧ toDash e2 = '-') := by
  refine ⟨rfl, ?_⟩
  intro d hd
  obtain ⟨l⟩ := d
  have hl : l ≠ [] := by
    intro hnil
    apply hd
    rw [hnil]
  rcases List.eq_nil_or_concat l with rfl | ⟨init, c, rfl⟩
  · exact absurd rfl hl
  · rw [List.concat_eq_append]
    have hdata : (String.mk (init ++ [c])).data = init ++ [c] := rfl
    have hmap : (init ++ [c]).map toDash = init.map toDash ++ [toDash c] := by
      rw [List.map_append]
      rfl
    by_cases hdash : toDash c = '-'
    · refine ⟨init.map toDash, ?_, ?_, ?_⟩
      · simp only [domain_to_filename, hdata, hmap, List.getLast?_concat, hdash]
        simp [List.dropLast_concat]
      · intro hmem
        obtain ⟨y, -, hy⟩ := List.mem_map.mp hmem
        exact toDash_ne_slash y hy
      · constructor
        · intro hlast
          rcases List.eq_nil_or_concat init with rfl | ⟨pre, e1, rfl⟩
          · simp at hlast
          · rw [List.concat_eq_append] at hlast ⊢
            refine ⟨pre, e1, c, by simp, ?_, hdash⟩
            rw [List.map_append, show List.map toDash [e1] = [toDash e1] from rfl,
                List.getLast?_concat] at hlast
            exact Option.some.inj hlast
        · rintro ⟨pre, e1, e2, hdec, he1, he2⟩
          have hdec2 : init ++ [c] = (pre ++ [e1]) ++ [e2] := by
            rw [hdata.symm.trans hdec, List.append_assoc]
            rfl
          have hinit : init = pre ++ [e1] := by
            have := congrArg List.dropLast hdec2
            rw [List.dropLast_concat, List.dropLast_concat] at this
            exact this
          rw [hinit, List.map_append, show List.map toDash [e1] = [toDash e1] from rfl,
              List.getLast?_concat, he1]
    · refine ⟨init.map toDash ++ [toDash c], ?_, ?_, ?_⟩
      · simp only [domain_to_filename, hdata, hmap, List.getLast?_concat]
        rw [if_neg hdash]
      · intro hmem
        rcases List.mem_append.mp hmem with hmem | hmem
        · obtain ⟨y, -, hy⟩ := List.mem_map.mp hmem
          exact toDash_ne_slash y hy
        · have : '/' = toDash c := by simpa using hmem
          exact toDash_ne_slash c this.symm
      · constructor
        · intro hlast
          rw [List.getLast?_concat] at hlast
          exact absurd (Option.some.inj hlast) hdash
        · rintro ⟨pre, e1, e2, hdec, he1, he2⟩
          have hdec2 : init ++ [c] = (pre ++ [e1]) ++ [e2] := by
            rw [hdata.symm.trans hdec, List.append_assoc]
            rfl
          have hc : c = e2 := by
            have := congrArg List.getLast? hdec2
            rw [List.getLast?_concat, List.getLast?_concat] at this
            exact Option.some.inj this
          rw [← hc] at he2
          exact absurd he2 hdash

theorem c10_witness :
    ("a.com" : String) ≠ "" ∧
      ∃ s : List Char,
        domain_to_filename "a.com" = .ok (String.mk (s ++ ".txt".data)) ∧
        '/' ∉ s ∧
        (s.getLast? = some '-' ↔
          ∃ pre e1 e2, "a.com".data = pre ++ [e1, e2] ∧ toDash e1 = '-' ∧ toDash e2 = '-') :=
  ⟨by decide, c10_amended_filename_mapping.2 "a.com" (by decide)⟩

end NewspaperUtils
